import Mathlib

/-!
Verification of the locomote-sh content-server against its specification.

Each section embeds the relevant JavaScript source functions as Lean
definitions (streams become lists, promises become explicit events or
plain values, JS strings become Lean strings operated on through their
character lists) and proves or refutes the specified properties.
-/

set_option autoImplicit false
set_option linter.unusedVariables false
set_option maxRecDepth 100000

namespace ContentServer

/-! ## A small toolkit modelling the JavaScript string operations used by the
source. All functions recurse structurally over the character list of the
string so that concrete evaluations reduce inside the kernel. -/

/-- Model of the JS index access s[i]; an out-of-range access (JS undefined)
is modelled as the NUL character, which the source only ever compares against
letter codes. -/
def jsCharAt (s : String) (i : Nat) : Char :=
  s.data.getD i (Char.ofNat 0)

/-- Model of JS s.slice(n) for a non-negative n: the substring from index n. -/
def jsSlice (s : String) (n : Nat) : String :=
  String.mk (s.data.drop n)

/-- Helper for jsSplitChar: walks the characters, accumulating the current
field in reverse. -/
def splitCharAux (sep : Char) : List Char → List Char → List String
  | [], cur => [String.mk cur.reverse]
  | c :: rest, cur =>
    if c == sep then String.mk cur.reverse :: splitCharAux sep rest []
    else splitCharAux sep rest (c :: cur)

/-- Model of JS s.split(sep) for a single-character separator. -/
def jsSplitChar (sep : Char) (s : String) : List String :=
  splitCharAux sep s.data []

/-- Model of JS s.startsWith(p). -/
def jsStartsWith (s p : String) : Bool :=
  p.data.isPrefixOf s.data

/-- Model of JS s.toLowerCase() for the ASCII strings handled by the source. -/
def jsToLower (s : String) : String :=
  String.mk (s.data.map Char.toLower)

/-- Helper for jsIndexOf: scan the haystack for the needle, tracking the
current index. -/
def jsIndexOfAux (needle : List Char) : List Char → Int → Int
  | [], i => if needle.isEmpty then i else -1
  | c :: t, i =>
    if needle.isPrefixOf (c :: t) then i else jsIndexOfAux needle t (i + 1)

/-- Model of JS s.indexOf(sub): the first index of an occurrence, or -1. -/
def jsIndexOf (s sub : String) : Int :=
  jsIndexOfAux sub.data s.data 0

/-- Model of JS s.includes(sub). -/
def strContains (s sub : String) : Bool :=
  jsIndexOf s sub ≥ 0

/-- Model of JS Array.prototype.join() with the default comma separator. -/
def joinComma : List String → String
  | [] => ""
  | [x] => x
  | x :: rest => x ++ "," ++ joinComma rest

/-! ## File records

JSON-lines records written by the file DB pipelines are heterogeneous
objects; they are modelled as one structure with defaulted fields, where a
missing JSON property is the empty string (resp. none). -/

/-- Commit information as returned by the VCR adapter: readCurrentCommitForFile
yields an object with at least an id (short hash) and a date. -/
structure CommitInfo where
  id : String
  date : Int
deriving DecidableEq, Repr

/-- A file DB record; covers ordinary file records and the control records
(category values starting with a dollar sign) emitted by processUpdates. -/
structure FileRec where
  path : String := ""
  category : String := ""
  name : String := ""
  commit : String := ""
  value : String := ""
  status : String := ""
  info : Option CommitInfo := none
deriving DecidableEq, Repr

/-! ## ACM: filterAndRewrite (src/unnamed/part_002, acm module)

The per-request auth context carries the accessible category lookup, the
request-derived record filter, and (through the auth settings) the per
category rewrite functions. A rewrite receives the record and the request
context and may return nil; the context argument is folded into the closure
here to keep the structure strictly positive. -/

structure Auth where
  accessible : String → Bool
  filter : FileRec → Bool
  rewrites : String → Option (FileRec → Option FileRec)
  group : String

structure ReqCtx where
  repoPath : String
  auth : Auth

/-- Embedding of filterAndRewrite(ctx, record): return nil when the record
category is not accessible or the request filter rejects the record, else
apply the category rewrite if one is configured. -/
def filterAndRewrite (ctx : ReqCtx) (record : FileRec) : Option FileRec :=
  let category := record.category
  if !(ctx.auth.accessible category) then none
  else if !(ctx.auth.filter record) then none
  else
    match ctx.auth.rewrites category with
    | some rewrite => rewrite record
    | none => some record

/-! ## Update parsing (src/lib/manifests.js)

nameOnlyParser and nameStatusParser turn lines of VCR diff output into
path/status items; correctExtendedChars is the quoted-octal filename decoder
from src/lib/filedb/support.js and is passed in as a function argument. -/

/-- A parsed path plus active status as produced by the line parsers. -/
structure FileItem where
  path : String
  status : Bool
deriving DecidableEq, Repr

/-- Embedding of nameOnlyParser(line): the whole line is the path and the
status is always active. -/
def nameOnlyParser (cec : String → String) (line : String) : List FileItem :=
  let path := cec line
  let status := true
  [⟨path, status⟩]

/-- Embedding of nameStatusParser(line): a status code followed by the path;
an R line (rename) carries the old and the new path, tab separated, and
produces a deletion item on the old name followed by an active item on the
new name. -/
def nameStatusParser (cec : String → String) (line : String) : List FileItem :=
  let code := jsCharAt line 0
  if code == 'R' then
    let fields := jsSplitChar '\t' line
    [⟨cec (fields.getD 1 ""), false⟩, ⟨cec (fields.getD 2 ""), true⟩]
  else
    let path := cec (jsSlice line 2)
    let status := code != 'D'
    [⟨path, status⟩]

/-- The per-item body of makeFileRecords: build a record at the current
commit, falling back to the since commit with inactive status when the file
no longer belongs to a fileset. The makeFileRecord function (fileset lookup
and processors, with ctx and the fileset cache folded in) is a parameter. -/
def makeFileRecord1 (mk : String → String → Bool → Option FileRec)
    (commit since : String) (item : FileItem) : Option FileRec :=
  match mk commit item.path item.status with
  | some record => some record
  | none => mk since item.path false

/-- Embedding of makeFileRecords(ctx, commit, since, items): one (possibly
missing) record per item, in item order. -/
def makeFileRecords (mk : String → String → Bool → Option FileRec)
    (commit since : String) (items : List FileItem) : List (Option FileRec) :=
  items.map (makeFileRecord1 mk commit since)

/-! ## processUpdates and listUpdatesSince (src/lib/manifests.js)

The streaming pipeline is embedded as list processing: the open step yields
the list of output lines of the git command, each following step maps the
previous list, and jsonlTransformer hooks that return nil drop the record.
The git adapter operations and the fileset record builder are abstract
function parameters collected in GitEnv. -/

/-- The control record prepended by processUpdates when the since commit was
invalid. -/
def controlResetRecord : FileRec :=
  { name := "reset", category := "$control" }

/-- JS object assignment obj[k] = v on a string-keyed object: replace the
value in place when the key exists, else append (insertion order is the JS
for-in enumeration order). -/
def assocSet (l : List (String × CommitInfo)) (k : String) (v : CommitInfo) :
    List (String × CommitInfo) :=
  match l with
  | [] => [(k, v)]
  | (k0, v0) :: rest =>
    if k0 == k then (k0, v) :: rest else (k0, v0) :: assocSet rest k v

/-- The per-record body of the processUpdates jsonlTransformer hook: read the
current commit for the path (skipping the record when the lookup fails),
apply filterAndRewrite (skipping when it rejects), and rewrite the record
commit to the commit hash. Returns the commit info together with the record
that is emitted downstream. -/
def processRecord (readCommit : String → String → String → Option CommitInfo)
    (ctx : ReqCtx) (version : String) (record : FileRec) :
    Option (CommitInfo × FileRec) :=
  match readCommit ctx.repoPath record.path version with
  | none => none
  | some commit =>
    match filterAndRewrite ctx record with
    | none => none
    | some record2 => some (commit, { record2 with commit := commit.id })

/-- The accumulator threaded through processUpdates: records emitted so far,
the per-category latest commit map, and the unique commit map. -/
structure PUState where
  emitted : List FileRec := []
  categories : List (String × CommitInfo) := []
  commits : List (String × CommitInfo) := []
deriving Repr

/-- One step of the processUpdates stream fold. -/
def puStep (readCommit : String → String → String → Option CommitInfo)
    (ctx : ReqCtx) (version : String) (st : PUState) (record : FileRec) :
    PUState :=
  match processRecord readCommit ctx version record with
  | none => st
  | some (commit, rec2) =>
    let category := rec2.category
    let categories :=
      match st.categories.lookup category with
      | some inplace =>
        if inplace.date < commit.date then assocSet st.categories category commit
        else st.categories
      | none => st.categories ++ [(category, commit)]
    { emitted := st.emitted ++ [rec2]
      categories := categories
      commits := assocSet st.commits commit.id commit }

/-- The per-category control records emitted after the stream. -/
def categoryRecords (cats : List (String × CommitInfo)) : List FileRec :=
  cats.map (fun p =>
    { path := ".locomote/category/" ++ p.1, commit := p.2.id,
      category := "$category", name := p.1 })

/-- The ACM group control record. -/
def acmGroupRecord (group : String) : FileRec :=
  { path := ".locomote/acm/group", category := "$acm", name := "group",
    value := group }

/-- The per-commit control records. -/
def commitRecords (commits : List (String × CommitInfo)) : List FileRec :=
  commits.map (fun p =>
    { path := ".locomote/commit/" ++ p.1, info := some p.2,
      category := "$commit" })

/-- The latest-commit control record. -/
def latestRecord (commit : String) : FileRec :=
  { path := ".locomote/commit/$latest", category := "$latest", commit := commit }

/-- Embedding of processUpdates(vars, outs, ins): prepend the reset control
record iff the valid flag is the letter I, stream the transformed records,
then append the category, acm group, commit and latest control records. -/
def processUpdates (readCommit : String → String → String → Option CommitInfo)
    (ctx : ReqCtx) (valid : String) (commit : String)
    (records : List FileRec) : List FileRec :=
  let pre := if valid == "I" then [controlResetRecord] else []
  let st := records.foldl (puStep readCommit ctx commit) {}
  pre ++ st.emitted
      ++ categoryRecords st.categories
      ++ [acmGroupRecord ctx.auth.group]
      ++ commitRecords st.commits
      ++ [latestRecord commit]

/-- The VCR adapter operations and the fileset record builder used by the
listUpdatesSince pipeline, as abstract parameters. makeFileRecord has the
request context and the fileset cache folded in; its arguments are commit,
path and status. -/
structure GitEnv where
  isValidCommit : String → String → Bool
  listAllFilesAtCommit : String → String → List String
  listChangesSince : String → String → String → List String
  readCurrentCommitForFile : String → String → String → Option CommitInfo
  cec : String → String
  makeFileRecord : String → String → Bool → Option FileRec

/-- Embedding of the listUpdatesSince pipeline: init computes the valid flag
from isValidCommit; open lists all tracked files at the current commit when
the since commit is invalid, else the changes since; the first step parses
lines (nameStatusParser iff the diff listing was used) and builds file
records with the since-commit fallback; the second step is processUpdates. -/
def listUpdatesSinceRecords (env : GitEnv) (ctx : ReqCtx)
    (since commit : String) : List FileRec :=
  let valid := if env.isValidCommit ctx.repoPath since then "V" else "I"
  let lines :=
    if valid != "V" then env.listAllFilesAtCommit ctx.repoPath commit
    else env.listChangesSince ctx.repoPath commit since
  let lineParser := if valid == "V" then nameStatusParser env.cec
                    else nameOnlyParser env.cec
  let items := (lines.map lineParser).flatten
  let records := (makeFileRecords env.makeFileRecord commit since items).filterMap id
  processUpdates env.readCurrentCommitForFile ctx valid commit records

/-! ## Named asynchronous queues (src/lib/async.js, queue)

The queue function and the JS event loop are modelled as a state machine.
Operations are opaque asynchronous functions identified by numbers; invoking
an operation is a start event and the settlement of its promise is a settle
event. JS executes each synchronous block to completion: promise reactions
(then callbacks) never run inside the synchronous block that created them,
so a genuinely asynchronous operation settles in a strictly later step than
the block that started it.

In the source, next() calls fn().then(resolve).catch(reject) and then calls
next() again synchronously, without awaiting the settlement; the whole drain
of a queue therefore happens inside the submitting call, emitting only start
events, and the queue entry is deleted at its end. A queueSubmit step below
models one queue(name, fn) call together with this synchronous drain; a
queueSettle step models the later settlement of a started operation. -/

inductive QEvent where
  | start (op : Nat)
  | settle (op : Nat)
deriving DecidableEq, Repr

structure QState where
  queues : List (String × List Nat)
  trace : List QEvent
deriving Repr

/-- Delete a queue entry (the JS delete Queues[queueName]). -/
def qremove (qs : List (String × List Nat)) (name : String) :
    List (String × List Nat) :=
  qs.filter (fun p => !(p.1 == name))

/-- Store a queue under its name (object assignment, insertion ordered). -/
def qset : List (String × List Nat) → String → List Nat →
    List (String × List Nat)
  | [], n, q => [(n, q)]
  | (n0, q0) :: rest, n, q =>
    if n0 == n then (n0, q) :: rest else (n0, q0) :: qset rest n q

/-- Embedding of one queue(name, fn) call. The item is pushed; if it is the
first item the synchronous drain runs: every queued fn is invoked back to
back (start events) without awaiting its settlement, and the entry is then
deleted. Settlements are deferred to later queueSettle steps. -/
def queueSubmit (s : QState) (name : String) (op : Nat) : QState :=
  let q := ((s.queues.lookup name).getD []) ++ [op]
  if q.length == 1 then
    { queues := qremove s.queues name
      trace := s.trace ++ q.map QEvent.start }
  else
    { queues := qset s.queues name q, trace := s.trace }

/-- Settlement of the promise of an already started operation, occurring in
a microtask after the synchronous block that started it. -/
def queueSettle (s : QState) (op : Nat) : QState :=
  { s with trace := s.trace ++ [QEvent.settle op] }

def initQState : QState := { queues := [], trace := [] }

/-- True iff a settle event for op a appears strictly before the start event
of op b in the trace. -/
def settledBeforeStart : List QEvent → Nat → Nat → Bool
  | [], _, _ => false
  | e :: rest, a, b =>
    if e == QEvent.settle a then true
    else if e == QEvent.start b then false
    else settledBeforeStart rest a b

/-- The execution from the failing input: two operations submitted to queue
q from the same synchronous block, with both settlements arriving later (as
they must for genuinely asynchronous operations). -/
def c1run : QState :=
  queueSettle (queueSettle (queueSubmit (queueSubmit initQState "q" 1) "q" 2) 1) 2

/-! ## Search HTTP handler framing (src/unnamed/part_009, search httpapi)

For each record read from the result artifact, ACM accessibility is checked
synchronously and an operation writing the row is submitted to the response
queue; the operation awaits the content negotiator check and then writes the
opening bracket or a comma followed by the row JSON. After the record stream
ends, a closing operation is submitted which synchronously reads the row
count and ends the response with the closing bracket, or the empty array
when no row was written.

Because queue(name, fn) invokes fn immediately (see the queue model above),
the closing operation runs at its submission, while a row operation resumes
only when its negotiator promise settles; whether that happens before or
after the closing operation is a race. The schedule below records, per
accessible row, whether its resumption ran before the closing operation.
Writes issued after res.end raise a write-after-end error and are not
transmitted. -/

structure RowItem where
  json : String
  accessible : Bool
  valid : Bool
deriving DecidableEq, Repr

/-- The write section of one row operation: when the row is the preferred
representation, write a bracket or comma and the row JSON and bump the
count. -/
def searchWriteStep (acc : String × Nat) (it : RowItem) : String × Nat :=
  if it.valid then
    (acc.1 ++ (if acc.2 == 0 then "[" else ",") ++ it.json, acc.2 + 1)
  else acc

/-- The response bytes under the ordering the handler comments assume: every
row operation completes before the closing operation runs. -/
def searchHandlerSerialized (rows : List RowItem) : String :=
  let submitted := rows.filter (fun r => r.accessible)
  let res := submitted.foldl searchWriteStep ("", 0)
  res.1 ++ (if res.2 == 0 then "[]" else "]")

/-- The response bytes under the actual queue semantics for a given schedule:
row operations whose negotiator check resolved before the closing operation
write first (in submission order); the closing operation then ends the
response from the count it observes; rows resuming later write after end and
their bytes are not transmitted. -/
def searchHandlerActual (rows : List RowItem) (early : List Bool) : String :=
  let submitted := rows.filter (fun r => r.accessible)
  let flagged := submitted.zip early
  let earlyRows := (flagged.filter (fun p => p.2)).map (fun p => p.1)
  let res := earlyRows.foldl searchWriteStep ("", 0)
  res.1 ++ (if res.2 == 0 then "[]" else "]")

/-! ## Search result cache pruning (src/unnamed/part_010, pruneRepoCache)

The source function never awaits the listFilesInCache promise (nor does
listFilesInCache await its exec call), so as written it throws a TypeError
at files.reduce before deleting anything. The definition below models the
deletion logic of lines 86 to 104 applied to the resolved file listing, to
examine which files that logic selects. -/

structure CFile where
  path : String
  size : Int
  atime : Int
  mtime : Int
deriving DecidableEq, Repr

/-- Stable insertion respecting the source comparator (a, b) => b.mtime -
a.mtime: an element is placed before the first element with a strictly
smaller mtime, so the list is ordered by mtime descending (most recently
modified first), ties keeping submission order as in the JS stable sort. -/
def insertByMtimeDesc (x : CFile) : List CFile → List CFile
  | [] => [x]
  | y :: rest =>
    if x.mtime > y.mtime then x :: y :: rest else y :: insertByMtimeDesc x rest

/-- The JS Array.prototype.sort with the source comparator. -/
def sortByMtimeDesc (l : List CFile) : List CFile :=
  l.foldl (fun acc x => insertByMtimeDesc x acc) []

/-- The while loop of pruneRepoCache: shift files off the sorted list and
collect their paths while the running size still exceeds the maximum. -/
def pruneLoop (maxCacheSize : Int) : Int → List CFile → List String
  | _, [] => []
  | size, f :: rest =>
    if size > maxCacheSize then f.path :: pruneLoop maxCacheSize (size - f.size) rest
    else []

/-- Embedding of the pruneRepoCache deletion logic: compute the total size;
when over the maximum, drop files accessed within the last minute from the
candidates, sort by the source comparator, and collect paths until the total
falls to the maximum or the candidates run out. Returns the deleted paths. -/
def pruneRepoCache (maxCacheSize now : Int) (files : List CFile) : List String :=
  let size := files.foldl (fun total file => total + file.size) 0
  if size > maxCacheSize then
    let files := files.filter (fun f => now - f.atime > 60000)
    let files := sortByMtimeDesc files
    pruneLoop maxCacheSize size files
  else []

/-- The failing input: both files were last accessed more than a minute ago;
file a is the least recently used (oldest atime and mtime), file b the most
recently used. -/
def c6fileA : CFile := { path := "a", size := 200000, atime := 0, mtime := 1 }

def c6fileB : CFile :=
  { path := "b", size := 200000, atime := 100000, mtime := 900000 }

/-! ## Error pages (src/lib/httpapi, errors module and sendError)

findErrorPageForCode loops a wildcard offset i from 3 down to 0 and computes
maskCode(code, i), but then builds the probe path from the unmasked code, so
the mask is never used; the content negotiator path rewrite and the file DB
existence check are abstract parameters. -/

structure ErrEnv where
  pathForRequest : String → String
  fdbExists : String → Bool

/-- Embedding of maskCode(code, offset): the first offset characters of the
code followed by the leading 3 - offset characters of xxx. -/
def maskCode (code : String) (offset : Nat) : String :=
  String.mk (code.data.take offset) ++ String.mk ("xxx".data.take (3 - offset))

/-- The loop of findErrorPageForCode; the fuel argument is the loop counter
plus one, so iterations run with i = 3, 2, 1, 0. The mask binding mirrors
the source, which computes it and then builds the path from the code
instead. -/
def findErrorPageLoop (env : ErrEnv) (code : String) : Nat → Option String
  | 0 => none
  | i + 1 =>
    let mask := maskCode code i
    let path0 := "errors/" ++ code
    let path1 := env.pathForRequest path0
    if env.fdbExists path1 then some path1
    else if env.fdbExists (path1 ++ ".html") then some (path1 ++ ".html")
    else findErrorPageLoop env code i

/-- Embedding of findErrorPageForCode(ctx, req, code). -/
def findErrorPageForCode (env : ErrEnv) (code : String) : Option String :=
  findErrorPageLoop env code 4

/-- The response produced by sendError: either a bare status response or an
error page served from the file DB. -/
inductive ErrResponse where
  | bareStatus (code : String)
  | page (path : String)
deriving DecidableEq, Repr

/-- Embedding of sendError(ctx, req, res, code, message): a bare status
unless the accepts header names text/html and an error page path is found. -/
def sendError (env : ErrEnv) (acceptsHeader : String) (code : String) :
    ErrResponse :=
  if !(strContains acceptsHeader "text/html") then ErrResponse.bareStatus code
  else
    match findErrorPageForCode env code with
    | none => ErrResponse.bareStatus code
    | some p => ErrResponse.page p

/-- The failing input environment: the negotiator leaves paths unchanged and
the repo holds exactly the generic wildcard error page. -/
def c7env : ErrEnv :=
  { pathForRequest := id, fdbExists := fun p => p == "errors/xxx.html" }

/-! ## Search excerpts (src/unnamed/part_009, makeExcerpt)

The row content is a string (a missing or null content, falsy in JS, is
modelled by the empty string). Index arithmetic uses integers exactly as JS
number arithmetic does on these inputs. -/

def ExcerptLength : Int := 500

/-- Model of the JS split on the whitespace regex: tokens between maximal
whitespace runs, with a leading empty token when the string starts with
whitespace and a trailing empty token when it ends with one. The boolean
records whether the previous character was whitespace. -/
def splitWsAux : List Char → List Char → Bool → List String
  | [], cur, _ => [String.mk cur.reverse]
  | c :: rest, cur, prevWs =>
    if c.isWhitespace then
      if prevWs then splitWsAux rest [] true
      else String.mk cur.reverse :: splitWsAux rest [] true
    else splitWsAux rest (c :: cur) false

def jsSplitWs (s : String) : List String :=
  splitWsAux s.data [] false

/-- Model of JS s.substring(a, b): clamp both indices to the string bounds,
swap when reversed, and take the slice. -/
def jsSubstring (s : String) (a b : Int) : String :=
  let len : Int := s.data.length
  let a1 := min (max a 0) len
  let b1 := min (max b 0) len
  let lo := min a1 b1
  let hi := max a1 b1
  String.mk ((s.data.drop lo.toNat).take (hi - lo).toNat)

/-- The body of the replace of a term regex (flags ig) by the em-wrapped
match: scan left to right, wrap each non-overlapping case-insensitive
occurrence of the (pre-lowercased, nonempty) term, resuming after it. The
fuel is one more than the character count, enough since every step consumes
fuel and the scanned list shrinks. -/
def wrapMatchesGo (lt : List Char) : Nat → List Char → List Char
  | 0, s => s
  | _ + 1, [] => []
  | fuel + 1, c :: rest =>
    if lt.isPrefixOf ((c :: rest).map Char.toLower) then
      "<em>".data ++ (c :: rest).take lt.length ++ "</em>".data
        ++ wrapMatchesGo lt fuel ((c :: rest).drop lt.length)
    else c :: wrapMatchesGo lt fuel rest

/-- Model of excerpt.replace(new RegExp(term, ig), wrap) for the literal
terms the source passes. -/
def jsReplaceWrapCI (s : String) (term : String) : String :=
  String.mk (wrapMatchesGo (term.data.map Char.toLower) (s.data.length + 1) s.data)

/-- Embedding of makeExcerpt(row, term, mode) on the row content. The fmidx
fold mirrors the source: it starts from 0 and takes the maximum of the term
match indices, despite the doc comment of the source saying the excerpt
surrounds the first matching term. -/
def makeExcerpt (content : String) (term : String) (mode : String) : String :=
  let text := content
  if text == "" then ""
  else
    let terms := if mode == "exact" then [term] else jsSplitWs term
    let lctext := jsToLower text
    let fmidx : Int := terms.foldl (fun fmidx t =>
      let idx := jsIndexOf lctext t
      if idx > -1 then max idx fmidx else fmidx) 0
    let clen : Int := ExcerptLength / 2
    let start0 : Int := fmidx - clen
    let end0 : Int := fmidx + clen
    let len : Int := text.data.length
    let se1 := if start0 < 0 then (0, end0 - start0) else (start0, end0)
    let se2 :=
      if se1.2 > len then
        let diff := se1.2 - len
        (if se1.1 > diff then se1.1 - diff else 0, len - 1)
      else se1
    let excerpt0 := jsSubstring text se2.1 se2.2
    let excerpt1 := if se2.1 > 0 then "..." ++ excerpt0 else excerpt0
    let excerpt2 := if se2.2 < len - 1 then excerpt1 ++ "..." else excerpt1
    terms.foldl (fun excerpt t => jsReplaceWrapCI excerpt t) excerpt2

/-- The failing input content: the term alpha occurs at index 0, the term
omega at index 497, and the content is 502 characters long. -/
def c5content : String :=
  "alpha " ++ String.mk (List.replicate 490 'x') ++ " omega"

/-! ## Auth context group fingerprints (src/unnamed/part_002, acm module)

makeAuthContext merges the authenticated user groups, the request-derived
groups and the unrestricted fileset categories into one key set, sorts it,
canonicalizes category names to their fingerprints, and fingerprints the
joined list; the dollar-group is the fingerprint of the same list with the
CVS-prefixed entries removed. The fingerprint function and the category
fingerprint table are abstract parameters. -/

def CVSGroupNamePrefix : String := "CVS:"

/-- JS object key accumulation: add a key unless present, preserving first
insertion order. -/
def addKey (acc : List String) (n : String) : List String :=
  if acc.contains n then acc else acc ++ [n]

def buildKeys (init : List String) (names : List String) : List String :=
  names.foldl addKey init

/-- The keys of the accessible object: user groups, then request-derived
groups, then the categories of the unrestricted filesets (category,
restricted pairs). -/
def accessibleNames (userGroups additionalGroups : List String)
    (filesets : List (String × Bool)) : List String :=
  buildKeys (buildKeys (buildKeys [] userGroups) additionalGroups)
    (filesets.filterMap (fun fs => if fs.2 then none else some fs.1))

/-- Stable insertion for the JS default lexicographic sort. -/
def insertStr (x : String) : List String → List String
  | [] => [x]
  | y :: rest => if x < y then x :: y :: rest else y :: insertStr x rest

def sortStrings (l : List String) : List String :=
  l.foldl (fun acc x => insertStr x acc) []

/-- Object.keys(accessible).sort().map(name => fingerprints[name] || name);
the falsy check of the source is modelled by the option default, fingerprints
being non-empty hash strings. -/
def canonicalGroups (fps : String → Option String) (names : List String) :
    List String :=
  (sortStrings names).map (fun name => (fps name).getD name)

/-- The two fingerprints carried by the auth context; sgroup stands for the
dollar-group field. -/
structure AuthIDs where
  group : String
  sgroup : String
deriving DecidableEq, Repr

/-- Embedding of the group fingerprint computation of makeAuthContext. -/
def makeAuthContextIDs (fingerprint : String → String)
    (fps : String → Option String) (userGroups additionalGroups : List String)
    (filesets : List (String × Bool)) : AuthIDs :=
  let accessible := accessibleNames userGroups additionalGroups filesets
  let cgroups := canonicalGroups fps accessible
  let groupID := fingerprint (joinComma cgroups)
  let cgroups2 := cgroups.filter (fun id => !(jsStartsWith id CVSGroupNamePrefix))
  let sgroupID := fingerprint (joinComma cgroups2)
  { group := groupID, sgroup := sgroupID }

/-- JS word character test for the backslash-w class. -/
def isWordChar (c : Char) : Bool :=
  c.isAlphanum || c == '_'

/-- Scanner for the locale id pattern (one or more word characters, an
underscore, one or more word characters, matched from the start): seen
records whether at least one word character precedes the current position,
all of them word characters. -/
def localeScan (seen : Bool) : List Char → Bool
  | [] => false
  | [_] => false
  | c :: c2 :: rest =>
    if seen && c == '_' && isWordChar c2 then true
    else if isWordChar c then localeScan true (c2 :: rest)
    else false

def jsLocaleTest (s : String) : Bool :=
  localeScan false s.data

/-- Embedding of the group list built by getRequestDerivedAuthSettings: an
Accept-Language group when the header matches the locale pattern; then
either the fingerprint of the canonicalized filter JSON (when a filter query
is present), or the CVS-prefixed fingerprint of the submitted client visible
set (when a POST body carries one), or nothing. The filterQ argument is the
canonicalized filter JSON string. -/
def getRequestDerivedGroups (fingerprint : String → String)
    (locale : Option String) (filterQ : Option String) (cvs : Option String) :
    List String :=
  let groups : List String := []
  let groups := match locale with
    | some l => if jsLocaleTest l then groups ++ ["Accept-Language:" ++ l] else groups
    | none => groups
  match filterQ with
  | some fjson => groups ++ [fingerprint fjson]
  | none =>
    match cvs with
    | some c => groups ++ [CVSGroupNamePrefix ++ fingerprint c]
    | none => groups

/-! ## File globs (src/lib/trash/fileglob-new.js)

The FileGlob constructor translates a glob pattern, character by character,
into a regular expression source string which is then compiled by the JS
RegExp engine. The translation is embedded as compileBody below; matching of
the produced pattern string is given by a small executable matcher for the
JS regex fragment reachable from the translation (literals, backslash
escapes, bracket classes, groups, star and plus postfix quantifiers, and the
outer anchors), so that characters copied verbatim keep their JS regex
meaning. -/

/-- Embedding of the translation loop of the FileGlob constructor. -/
def compileBody : List Char → String
  | [] => ""
  | c :: rest =>
    if c == '*' then
      match rest with
      | '*' :: '/' :: rest2 => "([^/]*/)*" ++ compileBody rest2
      | r => "[^/]*" ++ compileBody r
    else if c == '?' then "[^/]" ++ compileBody rest
    else if c == '.' then "\\." ++ compileBody rest
    else String.singleton c ++ compileBody rest

/-- The full compiled regex source, anchored start to end. -/
def globCompile (glob : String) : String :=
  "^" ++ compileBody glob.data ++ "$"

/-- An atom of the regex fragment: a literal character, a bracket class, or
a group holding its raw inner pattern text. -/
inductive RAtom where
  | lit (c : Char)
  | cls (neg : Bool) (cs : List Char)
  | group (inner : List Char)
deriving DecidableEq, Repr

/-- Read a bracket class body up to the closing bracket. -/
def classSpan : List Char → Option (List Char × List Char)
  | [] => none
  | ']' :: r => some ([], r)
  | c :: r =>
    match classSpan r with
    | some (cs, r2) => some (c :: cs, r2)
    | none => none

/-- Read a group body up to the matching closing parenthesis, tracking
nesting depth. -/
def groupSpan : List Char → Nat → Option (List Char × List Char)
  | [], _ => none
  | ')' :: r, 0 => some ([], r)
  | ')' :: r, d + 1 =>
    match groupSpan r d with
    | some (cs, r2) => some (')' :: cs, r2)
    | none => none
  | '(' :: r, d =>
    match groupSpan r (d + 1) with
    | some (cs, r2) => some ('(' :: cs, r2)
    | none => none
  | c :: r, d =>
    match groupSpan r d with
    | some (cs, r2) => some (c :: cs, r2)
    | none => none

/-- Read one atom from the pattern, returning the atom, the number of
pattern characters consumed, and the remaining pattern. -/
def atomSpan : List Char → Option (RAtom × Nat × List Char)
  | [] => none
  | '\\' :: c :: r => some (RAtom.lit c, 2, r)
  | '\\' :: [] => none
  | '[' :: '^' :: r =>
    match classSpan r with
    | some (cs, r2) => some (RAtom.cls true cs, cs.length + 3, r2)
    | none => none
  | '[' :: r =>
    match classSpan r with
    | some (cs, r2) => some (RAtom.cls false cs, cs.length + 2, r2)
    | none => none
  | '(' :: r =>
    match groupSpan r 0 with
    | some (inner, r2) => some (RAtom.group inner, inner.length + 2, r2)
    | none => none
  | c :: r => some (RAtom.lit c, 1, r)

/-- All splits of a list into a prefix and the corresponding suffix. -/
def splits (sub : List Char) : List (List Char × List Char) :=
  (List.range (sub.length + 1)).map (fun i => (sub.take i, sub.drop i))

/-- The possible remainders after one atom match at the front of the
subject; group atoms consult the full matcher, passed in as m. -/
def atomRemainders (m : List Char → List Char → Bool) :
    RAtom → List Char → List (List Char)
  | RAtom.lit c, c2 :: rest => if c2 == c then [rest] else []
  | RAtom.lit _, [] => []
  | RAtom.cls neg cs, c2 :: rest => if cs.contains c2 != neg then [rest] else []
  | RAtom.cls _ _, [] => []
  | RAtom.group inner, sub =>
    (splits sub).filterMap (fun pr => if m inner pr.1 then some pr.2 else none)

/-- Backtracking matcher for the regex fragment: pat must match the whole
subject. The fuel bounds recursion depth; every exported use supplies ample
fuel for its inputs. -/
def rmatch : Nat → List Char → List Char → Bool
  | 0, _, _ => false
  | fuel + 1, pat, sub =>
    match pat with
    | [] => sub.isEmpty
    | _ =>
      match atomSpan pat with
      | none => false
      | some (atom, n, patRest) =>
        match patRest with
        | '*' :: pr2 =>
          rmatch fuel pr2 sub
            || (atomRemainders (rmatch fuel) atom sub).any
                 (fun rem => decide (rem.length < sub.length) && rmatch fuel pat rem)
        | '+' :: pr2 =>
          (atomRemainders (rmatch fuel) atom sub).any
            (fun rem => rmatch fuel (pat.take n ++ '*' :: pr2) rem)
        | _ =>
          (atomRemainders (rmatch fuel) atom sub).any
            (fun rem => rmatch fuel patRest rem)

/-- Model of new RegExp(pattern).test(path) for the anchored patterns the
glob compiler produces: strip the anchors and require a full match. -/
def reTest (pattern s : String) : Bool :=
  match pattern.data with
  | '^' :: rest =>
    match rest.getLast? with
    | some '$' =>
      rmatch ((pattern.data.length + 2) * (s.data.length + 2)) rest.dropLast s.data
    | _ => false
  | _ => false

/-- Embedding of FileGlob.matches(path). -/
def fileGlobMatches (glob path : String) : Bool :=
  reTest (globCompile glob) path

/-- Embedding of FileGlobSet.matches(path): any glob of the set matches. -/
def fileGlobSetMatches (globs : List String) (path : String) : Bool :=
  globs.any (fun g => fileGlobMatches g path)

/-- Embedding of Compliment.matches(path): the includes set matches and the
excludes set does not. -/
def complimentMatches (includes excludes : List String) (path : String) : Bool :=
  fileGlobSetMatches includes path && !(fileGlobSetMatches excludes path)

/-! ## Sample instances used by the witness theorems -/

/-- A sample request context: the pages category is accessible, the request
filter accepts everything, and no rewrites are configured. -/
def ctxSample : ReqCtx :=
  { repoPath := "/repos/acct/repo.git"
    auth :=
      { accessible := fun c => c == "pages"
        filter := fun _ => true
        rewrites := fun _ => none
        group := "G" } }

/-- A sample published page record. -/
def recSample : FileRec := { path := "a.html", category := "pages" }

/-- A sample git environment in which no since commit is valid and one file
is tracked; the fileset record builder never produces a record. -/
def gitEnvSample : GitEnv :=
  { isValidCommit := fun _ _ => false
    listAllFilesAtCommit := fun _ _ => ["a.html"]
    listChangesSince := fun _ _ _ => []
    readCurrentCommitForFile := fun _ _ _ => none
    cec := id
    makeFileRecord := fun _ _ _ => none }

/-! ## Theorems -/

/-- C1: the spec states that operations submitted under one queue name
execute one at a time in submission order, each settling before the next is
started, and that the queue entry is destroyed when drained. In the source,
next() invokes the next fn without awaiting the previous settlement, so two
operations submitted back to back are both started before the first settles:
the trace of the modelled execution starts both operations first and no
settle of operation 1 precedes the start of operation 2. (The entry removal
part holds: the queues map is empty.) This contradicts the doc comment of
queue() itself, lines 24 to 30 of src/lib/async.js. -/
theorem queue_starts_next_op_before_settle :
    c1run.trace
        = [QEvent.start 1, QEvent.start 2, QEvent.settle 1, QEvent.settle 2]
      ∧ settledBeforeStart c1run.trace 1 2 = false
      ∧ c1run.queues = [] := by
  decide

/-- C6: the spec states that when the branch cache exceeds the quota the
pruner deletes least-recently-used files until the total is at or below the
quota. On a cache of two stale files over quota, the embedded deletion logic
deletes file b, the most recently used one (larger atime and mtime), and
keeps the least recently used file a: the comparator sorts most recently
modified first even though the adjacent comment says ascending. (In addition
the source never awaits the file listing, so pruneRepoCache as written
throws a TypeError before deleting anything.) -/
theorem pruneRepoCache_deletes_most_recent :
    pruneRepoCache 250000 1000000 [c6fileA, c6fileB] = ["b"]
      ∧ c6fileA.mtime < c6fileB.mtime
      ∧ c6fileA.atime < c6fileB.atime
      ∧ 1000000 - c6fileA.atime > 60000
      ∧ 1000000 - c6fileB.atime > 60000 := by
  decide

/-- C7: the spec states that error responses accepting text/html fall back
from errors/code.html to wildcard pages with trailing digits replaced by x,
ultimately errors/xxx.html. The source computes maskCode but builds every
probe path from the unmasked code, so in a repo holding exactly
errors/xxx.html the lookup finds nothing and the response is a bare status
even though the request accepts text/html and the wildcard page exists. -/
theorem findErrorPage_wildcard_unused :
    c7env.fdbExists "errors/xxx.html" = true
      ∧ maskCode "404" 0 = "xxx"
      ∧ maskCode "404" 2 = "40x"
      ∧ findErrorPageForCode c7env "404" = none
      ∧ sendError c7env "text/html" "404" = ErrResponse.bareStatus "404" := by
  decide

/-- C8: the spec states that the search response bytes always form a valid
JSON array whose elements are the accepted rows. Because queue() does not
serialize (see C1), the closing operation can run before a pending row
operation resumes from its content negotiation check: on one accessible,
valid row under that schedule the transmitted body is the empty array while
the serialized order the handler comments assume would produce the array
holding the row, so the accepted row is lost (its write is issued after the
response has ended). -/
theorem searchHandler_end_race :
    searchHandlerActual [⟨"r1", true, true⟩] [false] = "[]"
      ∧ searchHandlerSerialized [⟨"r1", true, true⟩] = "[r1]"
      ∧ ("[]" : String) ≠ "[r1]" := by
  decide

/-- C5: the spec states that the excerpt is a window of at most 500
characters centered on the index of the first (earliest) case-insensitive
match of any search term. On a 502 character content where the term alpha
matches at index 0 and the term omega at index 497, the produced excerpt
starts with an ellipsis and does not contain alpha at all: the source folds
the match indices with Math.max from 0, centering the window on the last
match, contrary to its own doc comment about the first matching term. -/
theorem makeExcerpt_centers_on_last_match :
    jsIndexOf (jsToLower c5content) "alpha" = 0
      ∧ jsIndexOf (jsToLower c5content) "omega" = 497
      ∧ jsIndexOf (makeExcerpt c5content "alpha omega" "any") "alpha" = -1
      ∧ jsStartsWith (makeExcerpt c5content "alpha omega" "any") "..." = true := by
  decide

/-- C3: filterAndRewrite returns nil exactly when the record category is not
accessible or the request filter rejects the record; otherwise it applies
the configured rewrite, or the identity when none is configured; hence any
record it surfaces passed both the accessibility and the filter check. -/
theorem filterAndRewrite_spec (ctx : ReqCtx) (record : FileRec) :
    ((ctx.auth.accessible record.category = false
        ∨ ctx.auth.filter record = false) →
      filterAndRewrite ctx record = none)
      ∧ (ctx.auth.accessible record.category = true →
          ctx.auth.filter record = true →
          filterAndRewrite ctx record =
            match ctx.auth.rewrites record.category with
            | some rewrite => rewrite record
            | none => some record)
      ∧ (∀ out, filterAndRewrite ctx record = some out →
          ctx.auth.accessible record.category = true
            ∧ ctx.auth.filter record = true) := by
  refine ⟨?_, ?_, ?_⟩
  · rintro (h | h) <;> simp [filterAndRewrite, h]
  · intro h1 h2
    simp [filterAndRewrite, h1, h2]
  · intro out h
    cases hacc : ctx.auth.accessible record.category with
    | false => simp [filterAndRewrite, hacc] at h
    | true =>
      cases hfil : ctx.auth.filter record with
      | false => simp [filterAndRewrite, hacc, hfil] at h
      | true => exact ⟨rfl, rfl⟩

/-- Witness for C3: on the sample context and record, the claim theorem
yields that the record is surfaced unchanged. -/
theorem filterAndRewrite_spec_witness :
    filterAndRewrite ctxSample recSample = some recSample :=
  (filterAndRewrite_spec ctxSample recSample).2.1 rfl rfl

/-- C4: a name-status line with status code R yields exactly two items, a
deletion item on the old path followed by an active item on the new path,
and makeFileRecords maps them to records in the same order. -/
theorem nameStatusParser_rename (cec : String → String)
    (mk : String → String → Bool → Option FileRec) (commit since : String)
    (line f0 oldPath newPath : String)
    (hfront : jsCharAt line 0 = 'R')
    (hfields : jsSplitChar '\t' line = [f0, oldPath, newPath]) :
    nameStatusParser cec line = [⟨cec oldPath, false⟩, ⟨cec newPath, true⟩]
      ∧ makeFileRecords mk commit since (nameStatusParser cec line)
          = [makeFileRecord1 mk commit since ⟨cec oldPath, false⟩,
             makeFileRecord1 mk commit since ⟨cec newPath, true⟩] := by
  have h1 : nameStatusParser cec line
      = [⟨cec oldPath, false⟩, ⟨cec newPath, true⟩] := by
    simp [nameStatusParser, hfront, hfields]
  exact ⟨h1, by simp [makeFileRecords, h1]⟩

/-- Witness for C4: a concrete rename line produced by the VCR diff listing
is parsed into the deletion and the addition item. -/
theorem nameStatusParser_rename_witness :
    nameStatusParser id "R079\told.json\tnew.json"
      = [⟨"old.json", false⟩, ⟨"new.json", true⟩] :=
  (nameStatusParser_rename id (fun _ _ _ => none) "c2" "c1"
    "R079\told.json\tnew.json" "R079" "old.json" "new.json"
    (by decide) (by decide)).1

theorem string_mk_data (s : String) : String.mk s.data = s := rfl

theorem string_append_data (s t : String) :
    (s ++ t).data = s.data ++ t.data := rfl

theorem compileBody_plain :
    ∀ l : List Char, (∀ c ∈ l, c ≠ '*' ∧ c ≠ '?' ∧ c ≠ '.') →
      compileBody l = String.mk l := by
  intro l
  induction l with
  | nil => intro _; rfl
  | cons c t ih =>
    intro h
    have hc := h c (List.mem_cons_self c t)
    have ht := fun x hx => h x (List.mem_cons_of_mem c hx)
    have e1 : (c == '*') = false := by simp [hc.1]
    have e2 : (c == '?') = false := by simp [hc.2.1]
    have e3 : (c == '.') = false := by simp [hc.2.2]
    rw [compileBody.eq_def]
    simp only [e1, e2, e3, Bool.false_eq_true, if_false]
    rw [ih ht]
    rfl

/-- C10: the glob compiler escapes only the dot and translates only the
question mark, the star and the double-star-slash (a glob free of those
characters compiles to itself between the anchors); characters copied
verbatim keep their regex meaning, so the pattern a+b matches aab and not
the literal path a+b while the translated wildcards keep the documented glob
semantics; and a complement set matches a path exactly when the includes set
matches it and the excludes set does not. -/
theorem fileGlob_regex_semantics :
    (∀ glob : String, (∀ c ∈ glob.data, c ≠ '*' ∧ c ≠ '?' ∧ c ≠ '.') →
        globCompile glob = "^" ++ glob ++ "$")
      ∧ globCompile "a+b" = "^a+b$"
      ∧ fileGlobMatches "a+b" "aab" = true
      ∧ fileGlobMatches "a+b" "a+b" = false
      ∧ fileGlobMatches "*.js" "ab.js" = true
      ∧ fileGlobMatches "*.js" "a/b.js" = false
      ∧ fileGlobMatches "**/b.txt" "a1/a2/b.txt" = true
      ∧ fileGlobMatches "a?c" "abc" = true
      ∧ (∀ includes excludes path,
          complimentMatches includes excludes path
            = (fileGlobSetMatches includes path
                && !(fileGlobSetMatches excludes path))) := by
  refine ⟨?_, by decide, by decide, by decide, by decide, by decide,
    by decide, by decide, fun _ _ _ => rfl⟩
  intro glob h
  unfold globCompile
  rw [compileBody_plain glob.data h, string_mk_data]

/-- Witness for C10: a glob with no translated characters compiles to itself
between the anchors. -/
theorem fileGlob_regex_semantics_witness :
    globCompile "ab" = "^" ++ "ab" ++ "$" :=
  fileGlob_regex_semantics.1 "ab" (by decide)

theorem foldl_puStep_emitted
    (rc : String → String → String → Option CommitInfo) (ctx : ReqCtx)
    (version : String) :
    ∀ (records : List FileRec) (st : PUState),
      (records.foldl (puStep rc ctx version) st).emitted
        = st.emitted
            ++ records.filterMap
                 (fun r => (processRecord rc ctx version r).map Prod.snd) := by
  intro records
  induction records with
  | nil => intro st; simp
  | cons r t ih =>
    intro st
    rw [List.foldl_cons, ih]
    cases hp : processRecord rc ctx version r with
    | none => simp [puStep, hp]
    | some p =>
      obtain ⟨ci, r2⟩ := p
      simp [puStep, hp]

theorem filterAndRewrite_category (ctx : ReqCtx)
    (hrw : ∀ cat rw, ctx.auth.rewrites cat = some rw →
        ∀ rec out, rw rec = some out → out.category ≠ "$control")
    (record out : FileRec) (hcat : record.category ≠ "$control")
    (h : filterAndRewrite ctx record = some out) : out.category ≠ "$control" := by
  simp only [filterAndRewrite] at h
  cases hacc : ctx.auth.accessible record.category with
  | false => rw [hacc] at h; simp at h
  | true =>
    rw [hacc] at h
    cases hfil : ctx.auth.filter record with
    | false => rw [hfil] at h; simp at h
    | true =>
      rw [hfil] at h
      simp only [Bool.not_true, Bool.false_eq_true, if_false] at h
      cases hr : ctx.auth.rewrites record.category with
      | some rewrite =>
        rw [hr] at h
        exact hrw record.category rewrite hr record out h
      | none =>
        rw [hr] at h
        cases h
        exact hcat

theorem processRecord_category
    (rc : String → String → String → Option CommitInfo) (ctx : ReqCtx)
    (version : String)
    (hrw : ∀ cat rw, ctx.auth.rewrites cat = some rw →
        ∀ rec out, rw rec = some out → out.category ≠ "$control")
    (record : FileRec) (hcat : record.category ≠ "$control")
    (p : CommitInfo × FileRec)
    (h : processRecord rc ctx version record = some p) :
    p.2.category ≠ "$control" := by
  unfold processRecord at h
  cases hc : rc ctx.repoPath record.path version with
  | none => rw [hc] at h; cases h
  | some commit =>
    rw [hc] at h
    cases hf : filterAndRewrite ctx record with
    | none => rw [hf] at h; cases h
    | some rec2 =>
      rw [hf] at h
      cases h
      exact filterAndRewrite_category ctx hrw record rec2 hcat hf

theorem makeFileRecords_category
    (mk : String → String → Bool → Option FileRec)
    (hmk : ∀ c p s r, mk c p s = some r → r.category ≠ "$control")
    (commit since : String) (items : List FileItem) :
    ∀ r ∈ (makeFileRecords mk commit since items).filterMap id,
      r.category ≠ "$control" := by
  intro r hr
  rw [List.mem_filterMap] at hr
  obtain ⟨o, ho, hid⟩ := hr
  rw [makeFileRecords, List.mem_map] at ho
  obtain ⟨item, _, heq⟩ := ho
  subst heq
  unfold makeFileRecord1 at hid
  cases h1 : mk commit item.path item.status with
  | some rec => rw [h1] at hid; cases hid; exact hmk _ _ _ _ h1
  | none =>
    rw [h1] at hid
    exact hmk _ _ _ _ hid

theorem processUpdates_no_control
    (rc : String → String → String → Option CommitInfo) (ctx : ReqCtx)
    (commit : String) (records : List FileRec)
    (hrec : ∀ r ∈ records, r.category ≠ "$control")
    (hrw : ∀ cat rw, ctx.auth.rewrites cat = some rw →
        ∀ rec out, rw rec = some out → out.category ≠ "$control") :
    ∀ r ∈ processUpdates rc ctx "V" commit records,
      ¬ (r.category = "$control" ∧ r.name = "reset") := by
  intro r hr
  simp only [processUpdates] at hr
  rw [foldl_puStep_emitted] at hr
  simp only [show (("V" : String) == "I") = false from rfl, Bool.false_eq_true,
    if_false, List.nil_append, List.mem_append, List.mem_singleton,
    List.mem_filterMap, Option.map_eq_some', PUState.emitted] at hr
  rintro ⟨hcat, _⟩
  rcases hr with ((((⟨rec, hrecmem, p, hp, hr2⟩ | hcats) | hacm) | hcommits) | hlatest)
  · subst hr2
    exact processRecord_category rc ctx commit hrw rec (hrec rec hrecmem) p hp hcat
  · rw [categoryRecords, List.mem_map] at hcats
    obtain ⟨c, _, hc⟩ := hcats
    rw [← hc] at hcat
    simp at hcat
  · rw [hacm] at hcat
    simp [acmGroupRecord] at hcat
  · rw [commitRecords, List.mem_map] at hcommits
    obtain ⟨c, _, hc⟩ := hcommits
    rw [← hc] at hcat
    simp at hcat
  · rw [hlatest] at hcat
    simp [latestRecord] at hcat

/-- C2: when the since commit is not valid, the listUpdatesSince pipeline
falls back to the full tracked-file listing at the current commit (records
are built by nameOnlyParser over listAllFilesAtCommit) and the first record
of the result is the reset control record; when the since commit is valid no
reset control record is emitted, given that neither the fileset record
builder nor any configured rewrite ever produces a record of the reserved
control category. -/
theorem listUpdatesSince_reset_control (env : GitEnv) (ctx : ReqCtx)
    (since commit : String)
    (hmk : ∀ c p s r, env.makeFileRecord c p s = some r →
        r.category ≠ "$control")
    (hrw : ∀ cat rw, ctx.auth.rewrites cat = some rw →
        ∀ rec out, rw rec = some out → out.category ≠ "$control") :
    (env.isValidCommit ctx.repoPath since = false →
        listUpdatesSinceRecords env ctx since commit
          = processUpdates env.readCurrentCommitForFile ctx "I" commit
              ((makeFileRecords env.makeFileRecord commit since
                (((env.listAllFilesAtCommit ctx.repoPath commit).map
                    (nameOnlyParser env.cec)).flatten)).filterMap id)
          ∧ (listUpdatesSinceRecords env ctx since commit).head?
              = some controlResetRecord)
      ∧ (env.isValidCommit ctx.repoPath since = true →
          ∀ r ∈ listUpdatesSinceRecords env ctx since commit,
            ¬ (r.category = "$control" ∧ r.name = "reset")) := by
  constructor
  · intro h
    have heq : listUpdatesSinceRecords env ctx since commit
        = processUpdates env.readCurrentCommitForFile ctx "I" commit
            ((makeFileRecords env.makeFileRecord commit since
              (((env.listAllFilesAtCommit ctx.repoPath commit).map
                  (nameOnlyParser env.cec)).flatten)).filterMap id) := by
      simp [listUpdatesSinceRecords, h]
    refine ⟨heq, ?_⟩
    rw [heq]
    simp [processUpdates]
  · intro h
    have heq : listUpdatesSinceRecords env ctx since commit
        = processUpdates env.readCurrentCommitForFile ctx "V" commit
            ((makeFileRecords env.makeFileRecord commit since
              (((env.listChangesSince ctx.repoPath commit since).map
                  (nameStatusParser env.cec)).flatten)).filterMap id) := by
      simp [listUpdatesSinceRecords, h]
    rw [heq]
    exact processUpdates_no_control env.readCurrentCommitForFile ctx commit _
      (makeFileRecords_category env.makeFileRecord hmk commit since _) hrw

/-- Witness for C2: on the sample environment, where the since commit is not
valid, the first record of the result is the reset control record. -/
theorem listUpdatesSince_reset_control_witness :
    (listUpdatesSinceRecords gitEnvSample ctxSample "badcommit" "c1").head?
      = some controlResetRecord :=
  ((listUpdatesSince_reset_control gitEnvSample ctxSample "badcommit" "c1"
      (fun _ _ _ _ h => nomatch h) (fun _ _ h => nomatch h)).1 rfl).2

theorem mem_insertStr {x y : String} :
    ∀ {l : List String}, x ∈ insertStr y l → x = y ∨ x ∈ l := by
  intro l
  induction l with
  | nil =>
    intro h
    simp only [insertStr, List.mem_singleton] at h
    exact Or.inl h
  | cons z rest ih =>
    intro h
    simp only [insertStr] at h
    split at h
    · rcases List.mem_cons.mp h with h1 | h1
      · exact Or.inl h1
      · exact Or.inr h1
    · rcases List.mem_cons.mp h with h1 | h1
      · exact Or.inr (List.mem_cons.mpr (Or.inl h1))
      · rcases ih h1 with h2 | h2
        · exact Or.inl h2
        · exact Or.inr (List.mem_cons.mpr (Or.inr h2))

theorem mem_foldl_insertStr :
    ∀ (l acc : List String) (x : String),
      x ∈ l.foldl (fun acc y => insertStr y acc) acc → x ∈ acc ∨ x ∈ l := by
  intro l
  induction l with
  | nil =>
    intro acc x h
    exact Or.inl h
  | cons y t ih =>
    intro acc x h
    rw [List.foldl_cons] at h
    rcases ih (insertStr y acc) x h with h1 | h1
    · rcases mem_insertStr h1 with h2 | h2
      · exact Or.inr (List.mem_cons.mpr (Or.inl h2))
      · exact Or.inl h2
    · exact Or.inr (List.mem_cons.mpr (Or.inr h1))

theorem mem_sortStrings {x : String} {l : List String}
    (h : x ∈ sortStrings l) : x ∈ l := by
  rcases mem_foldl_insertStr l [] x h with h1 | h1
  · cases h1
  · exact h1

theorem mem_addKey {x n : String} {acc : List String}
    (h : x ∈ addKey acc n) : x ∈ acc ∨ x = n := by
  unfold addKey at h
  split at h
  · exact Or.inl h
  · rcases List.mem_append.mp h with h1 | h1
    · exact Or.inl h1
    · exact Or.inr (List.mem_singleton.mp h1)

theorem mem_buildKeys :
    ∀ (names init : List String) (x : String),
      x ∈ buildKeys init names → x ∈ init ∨ x ∈ names := by
  intro names
  induction names with
  | nil =>
    intro init x h
    exact Or.inl h
  | cons n t ih =>
    intro init x h
    rw [buildKeys, List.foldl_cons] at h
    rcases ih (addKey init n) x h with h1 | h1
    · rcases mem_addKey h1 with h2 | h2
      · exact Or.inl h2
      · exact Or.inr (List.mem_cons.mpr (Or.inl h2))
    · exact Or.inr (List.mem_cons.mpr (Or.inr h1))

theorem mem_derivedGroups (fingerprint : String → String)
    (locale filterQ : Option String) (x : String)
    (h : x ∈ getRequestDerivedGroups fingerprint locale filterQ none) :
    (∃ l, locale = some l ∧ x = "Accept-Language:" ++ l)
      ∨ (∃ j, filterQ = some j ∧ x = fingerprint j) := by
  unfold getRequestDerivedGroups at h
  cases locale with
  | none =>
    cases filterQ with
    | none => simp at h
    | some j =>
      simp at h
      exact Or.inr ⟨j, rfl, h⟩
  | some l =>
    cases filterQ with
    | none =>
      simp at h
      exact Or.inl ⟨l, rfl, h.2⟩
    | some j =>
      simp at h
      rcases h with ⟨_, h1⟩ | h1
      · exact Or.inl ⟨l, rfl, h1⟩
      · exact Or.inr ⟨j, rfl, h1⟩

theorem jsStartsWith_acceptLanguage (l : String) :
    jsStartsWith ("Accept-Language:" ++ l) CVSGroupNamePrefix = false := by
  show List.isPrefixOf ("CVS:" : String).data _ = false
  rw [string_append_data]
  have h1 : ("CVS:" : String).data = 'C' :: ("VS:" : String).data := rfl
  have h2 : ("Accept-Language:" : String).data
      = 'A' :: ("ccept-Language:" : String).data := rfl
  rw [h1, h2]
  simp [List.isPrefixOf]

/-- C9: the dollar-group fingerprint of the auth context is the fingerprint
of the same sorted, fingerprint-canonicalized accessible group list with the
CVS-prefixed entries removed; in particular, whenever no CVS-prefixed name
can enter the canonical list (fingerprints never carry the CVS prefix, user
groups and fileset categories are CVS-free, and the request submits no
client visible set) the dollar-group fingerprint equals the group
fingerprint. -/
theorem makeAuthContext_sgroup (fingerprint : String → String)
    (fps : String → Option String) (userGroups : List String)
    (filesets : List (String × Bool)) (locale filterQ cvs : Option String) :
    (makeAuthContextIDs fingerprint fps userGroups
        (getRequestDerivedGroups fingerprint locale filterQ cvs)
        filesets).sgroup
      = fingerprint (joinComma ((canonicalGroups fps
          (accessibleNames userGroups
            (getRequestDerivedGroups fingerprint locale filterQ cvs)
            filesets)).filter
          (fun id => !(jsStartsWith id CVSGroupNamePrefix))))
    ∧ ((∀ s, jsStartsWith (fingerprint s) CVSGroupNamePrefix = false) →
        (∀ c f, fps c = some f → jsStartsWith f CVSGroupNamePrefix = false) →
        (∀ g ∈ userGroups, jsStartsWith g CVSGroupNamePrefix = false) →
        (∀ p ∈ filesets, jsStartsWith p.1 CVSGroupNamePrefix = false) →
        cvs = none →
        (makeAuthContextIDs fingerprint fps userGroups
            (getRequestDerivedGroups fingerprint locale filterQ cvs)
            filesets).sgroup
          = (makeAuthContextIDs fingerprint fps userGroups
              (getRequestDerivedGroups fingerprint locale filterQ cvs)
              filesets).group) := by
  constructor
  · rfl
  · intro h1 h2 h3 h4 hcvs
    subst hcvs
    have hall : ∀ id ∈ canonicalGroups fps
        (accessibleNames userGroups
          (getRequestDerivedGroups fingerprint locale filterQ none) filesets),
        (!(jsStartsWith id CVSGroupNamePrefix)) = true := by
      intro id hid
      unfold canonicalGroups at hid
      rw [List.mem_map] at hid
      obtain ⟨n, hn, hid2⟩ := hid
      have hn2 := mem_sortStrings hn
      subst hid2
      cases hf : fps n with
      | some f => simp [hf, h2 n f hf]
      | none =>
        simp only [hf, Option.getD_none, Bool.not_eq_true']
        unfold accessibleNames at hn2
        rcases mem_buildKeys _ _ _ hn2 with hA | hcat
        · rcases mem_buildKeys _ _ _ hA with hB | hd
          · rcases mem_buildKeys _ _ _ hB with hnil | hu
            · cases hnil
            · exact h3 n hu
          · rcases mem_derivedGroups fingerprint locale filterQ n hd with
              ⟨l, _, hl2⟩ | ⟨j, _, hj2⟩
            · rw [hl2]
              exact jsStartsWith_acceptLanguage l
            · rw [hj2]
              exact h1 j
        · rw [List.mem_filterMap] at hcat
          obtain ⟨p, hp, hcond⟩ := hcat
          cases hrestricted : p.2 with
          | true => rw [hrestricted] at hcond; cases hcond
          | false =>
            rw [hrestricted] at hcond
            cases hcond
            exact h4 p hp
    have hfilter := List.filter_eq_self.mpr hall
    show fingerprint (joinComma (List.filter _ (canonicalGroups fps _)))
      = fingerprint (joinComma (canonicalGroups fps _))
    rw [hfilter]

/-- Witness for C9: a request with an Accept-Language header, a user group,
an unrestricted fileset and no client visible set has equal group and
dollar-group fingerprints. -/
theorem makeAuthContext_sgroup_witness :
    (makeAuthContextIDs (fun _ => "00") (fun _ => none) ["alpha"]
        (getRequestDerivedGroups (fun _ => "00") (some "en_US") none none)
        [("pages", false)]).sgroup
      = (makeAuthContextIDs (fun _ => "00") (fun _ => none) ["alpha"]
          (getRequestDerivedGroups (fun _ => "00") (some "en_US") none none)
          [("pages", false)]).group :=
  (makeAuthContext_sgroup (fun _ => "00") (fun _ => none) ["alpha"]
      [("pages", false)] (some "en_US") none none).2
    (fun _ => rfl) (fun _ _ h => nomatch h) (by decide) (by decide) rfl

end ContentServer
